import Mathlib

/-!
Verification of the FASTQ statistical aggregation engine.

This file gives a shallow embedding of the aggregation and summary logic of
the repository (the `stats` / `quality` command bodies of
`run_fastq_argparse.py` and `run_fastq_click.py`, which duplicate the same
aggregation, and the `run_analysis` / `draw_content_plot` methods of
`fastqc_gui.py`), and proves or refutes the specified properties.

Conventions of the embedding:
- a record stream is a finite `List Record`;
- Python `int` quality scores are `Int`, sequence characters are `Char`;
- Python `float` division is modelled exactly over `ℚ`;
- a Python `dict` is an insertion-ordered association list with unique keys:
  updating an existing key replaces it in place, a new key is appended;
- computations that raise an exception (and therefore produce no summary),
  and the early `return` on an empty file, are modelled with `Option`:
  `none` means that no summary was produced.
-/

namespace Fastqc

/-- A FASTQ record: a nucleotide sequence paired with per-base quality scores
(the objects yielded by `FastqReader.read`). -/
structure Record where
  sequence : List Char
  quality : List Int
deriving DecidableEq

/-- Number of G/C bases, as computed by
`seq_upper.count('G') + seq_upper.count('C')` after `record.sequence.upper()`. -/
def countGC (s : List Char) : Nat :=
  (s.filter fun c => c.toUpper == 'G' || c.toUpper == 'C').length

/-- The running accumulators of `calculate_basic_stats`
(`run_fastq_click.py` lines 13-44, duplicated in `stats_command` of
`run_fastq_argparse.py` lines 24-45). -/
structure BasicStatsData where
  total_sequences : Nat
  total_length : Nat
  sequence_lengths : List Nat
  gc_count : Nat
  total_bases : Nat
deriving DecidableEq

/-- The initial accumulator state (all counters zero, empty list). -/
def initBasic : BasicStatsData := ⟨0, 0, [], 0, 0⟩

/-- One iteration of the `for record in reader.read()` loop of
`calculate_basic_stats`. -/
def ingestBasic (st : BasicStatsData) (r : Record) : BasicStatsData :=
  { total_sequences := st.total_sequences + 1
    total_length := st.total_length + r.sequence.length
    sequence_lengths := st.sequence_lengths ++ [r.sequence.length]
    gc_count := st.gc_count + countGC r.sequence
    total_bases := st.total_bases + r.sequence.length }

/-- `calculate_basic_stats` over a whole record stream. -/
def calculate_basic_stats (records : List Record) : BasicStatsData :=
  records.foldl ingestBasic initBasic

/-- The derived basic statistics printed by the `stats` commands. -/
structure BasicStats where
  total_sequences : Nat
  total_length : Nat
  mean_length : ℚ
  min_length : Nat
  max_length : Nat
  gc_percent : ℚ
deriving DecidableEq

/-- The `stats` command derivation (`run_fastq_click.py` lines 71-93,
`run_fastq_argparse.py` lines 47-63): on `total_sequences == 0` the command
prints a no-data message and returns without computing any statistics
(modelled as `none`); otherwise `mean_length = total_length / total_sequences`,
`min_length`/`max_length` are `min`/`max` of the collected lengths, and
`gc_percent = gc_count / total_bases * 100 if total_bases > 0 else 0`. -/
def stats_command (records : List Record) : Option BasicStats :=
  let d := calculate_basic_stats records
  if d.total_sequences = 0 then
    none
  else
    some { total_sequences := d.total_sequences
           total_length := d.total_length
           mean_length := (d.total_length : ℚ) / (d.total_sequences : ℚ)
           min_length := d.sequence_lengths.min?.getD 0
           max_length := d.sequence_lengths.max?.getD 0
           gc_percent :=
             if 0 < d.total_bases then
               (d.gc_count : ℚ) / (d.total_bases : ℚ) * 100
             else 0 }

/-! ### Length distribution (the `--detailed` part of the `stats` commands) -/

/-- One iteration of the `length_counts[length] = length_counts.get(length, 0) + 1`
loop: the counts dict modelled as an insertion-ordered association list. -/
def updateLengthCounts (acc : List (Nat × Nat)) (len : Nat) : List (Nat × Nat) :=
  if acc.any fun p => p.1 == len then
    acc.map fun p => if p.1 == len then (p.1, p.2 + 1) else p
  else acc ++ [(len, 1)]

/-- The `length_counts` dict built from the collected sequence lengths
(`run_fastq_click.py` lines 98-100, `run_fastq_argparse.py` lines 67-69). -/
def lengthCounts (lengths : List Nat) : List (Nat × Nat) :=
  lengths.foldl updateLengthCounts []

/-- The comparison used by `sorted(length_counts.items(), key=lambda x: x[1],
reverse=True)`: descending by count. Python's sort is stable, which
`List.insertionSort` with this relation models exactly. -/
def countGE (x y : Nat × Nat) : Prop := y.2 ≤ x.2

instance : DecidableRel countGE := fun x y => Nat.decLe y.2 x.2

instance : IsTotal (Nat × Nat) countGE :=
  ⟨fun x y => (Nat.le_total y.2 x.2).elim Or.inl Or.inr⟩

instance : IsTrans (Nat × Nat) countGE :=
  ⟨fun _ _ _ h1 h2 => Nat.le_trans h2 h1⟩

/-- `sorted_lengths`: the stable descending-by-count sort of the counts dict,
truncated to the top 10 (`run_fastq_click.py` line 103,
`run_fastq_argparse.py` line 72). -/
def sortedLengths (counts : List (Nat × Nat)) : List (Nat × Nat) :=
  (List.insertionSort countGE counts).take 10

/-- One printed row of the length distribution:
`(length, count, percentage-of-total_sequences)`. -/
structure LengthEntry where
  length : Nat
  count : Nat
  percentage : ℚ
deriving DecidableEq

/-- The length-distribution table printed by the detailed `stats` output
(`run_fastq_click.py` lines 96-106, `run_fastq_argparse.py` lines 66-75):
`percentage = (count / total_sequences) * 100`. -/
def length_distribution (records : List Record) : List LengthEntry :=
  let d := calculate_basic_stats records
  (sortedLengths (lengthCounts d.sequence_lengths)).map fun p =>
    ⟨p.1, p.2, (p.2 : ℚ) / (d.total_sequences : ℚ) * 100⟩

/-! ### Quality analysis (the `quality` commands) -/

/-- The per-record `seq_quality` dict of the quality loop. -/
structure SeqQuality where
  mean_quality : ℚ
  min_quality : Int
  max_quality : Int
  q20_count : Nat
  q30_count : Nat
  length : Nat
deriving DecidableEq

/-- The body of the quality loop for one record (`run_fastq_click.py` lines
179-186, `run_fastq_argparse.py` lines 133-140). On a zero-length quality
list, `sum(qual_scores) / len(qual_scores)` raises `ZeroDivisionError`
(and `min`/`max` of an empty sequence also raise), which aborts the pass:
modelled as `none`. -/
def seqQualityStats (qual : List Int) : Option SeqQuality :=
  match qual with
  | [] => none
  | q :: qs =>
    some { mean_quality := (((q :: qs).sum : Int) : ℚ) / ((q :: qs).length : ℚ)
           min_quality := qs.foldl min q
           max_quality := qs.foldl max q
           q20_count := ((q :: qs).filter fun x => 20 ≤ x).length
           q30_count := ((q :: qs).filter fun x => 30 ≤ x).length
           length := (q :: qs).length }

/-- The quality loop over the whole stream, collecting `quality_stats`;
it stops at the first record whose per-record statistics raise. -/
def collectQuality : List Record → Option (List SeqQuality)
  | [] => some []
  | r :: rs =>
    match seqQualityStats r.quality with
    | none => none
    | some s =>
      match collectQuality rs with
      | none => none
      | some l => some (s :: l)

/-- The aggregated quality report of the `quality` commands. -/
structure QualitySummary where
  total_sequences : Nat
  total_bases : Nat
  mean_quality_all : ℚ
  min_quality_all : Int
  max_quality_all : Int
  q20_percentage : ℚ
  q30_percentage : ℚ
  quality_grade : String
deriving DecidableEq

/-- The quality-grade classification of `run_fastq_click.py` lines 219-230:
an ordered `if`/`elif` chain, first match wins. -/
def classify_grade (q20_percentage q30_percentage : ℚ) : String :=
  if 80 ≤ q30_percentage then "Отличное"
  else if 60 ≤ q30_percentage then "Хорошее"
  else if 80 ≤ q20_percentage then "Удовлетворительное"
  else "Плохое"

/-- The `quality` command (`run_fastq_click.py` lines 169-233,
`run_fastq_argparse.py` lines 123-168). `none` models the three ways no
summary is produced: an exception inside the loop, the early return on
`total_sequences == 0`, and the unguarded `total_q20 / total_bases` division
raising when `total_bases == 0` (unreachable, since a zero-length read
already raises inside the loop). -/
def quality_command (records : List Record) : Option QualitySummary :=
  match collectQuality records with
  | none => none
  | some [] => none
  | some (s0 :: rest) =>
    let qstats := s0 :: rest
    let total_bases := (qstats.map SeqQuality.length).sum
    let total_q20 := (qstats.map SeqQuality.q20_count).sum
    let total_q30 := (qstats.map SeqQuality.q30_count).sum
    if total_bases = 0 then none
    else
      let q20_percentage := (total_q20 : ℚ) / (total_bases : ℚ) * 100
      let q30_percentage := (total_q30 : ℚ) / (total_bases : ℚ) * 100
      some { total_sequences := qstats.length
             total_bases := total_bases
             mean_quality_all :=
               (qstats.map SeqQuality.mean_quality).sum / (qstats.length : ℚ)
             min_quality_all := (rest.map SeqQuality.min_quality).foldl min s0.min_quality
             max_quality_all := (rest.map SeqQuality.max_quality).foldl max s0.max_quality
             q20_percentage := q20_percentage
             q30_percentage := q30_percentage
             quality_grade := classify_grade q20_percentage q30_percentage }

/-! ### The GUI analysis (`fastqc_gui.py`, `run_analysis` lines 106-165) -/

/-- Lookup in a Python dict modelled as an insertion-ordered association
list with unique keys. -/
def lookupPos {β : Type} : List (Nat × β) → Nat → Option β
  | [], _ => none
  | e :: es, p => if e.1 = p then some e.2 else lookupPos es p

/-- Keyed dict update: replace the entry in place if the key exists,
otherwise append it (Python dicts preserve insertion order). -/
def setPos {β : Type} : List (Nat × β) → Nat → β → List (Nat × β)
  | [], p, v => [(p, v)]
  | e :: es, p, v => if e.1 = p then (p, v) :: es else e :: setPos es p v

/-- The `quality_per_position` update of `run_analysis` lines 133-135:
`if i not in d: d[i] = []` followed by `d[i].append(q)` for each quality
score, starting at position `i`. The raw scores are stored as a growing
list. -/
def qualPosIngest : List (Nat × List Int) → List Int → Nat → List (Nat × List Int)
  | m, [], _ => m
  | m, q :: qs, i =>
    qualPosIngest (setPos m i ((lookupPos m i).getD [] ++ [q])) qs (i + 1)

/-- The per-position nucleotide counts `{"A": 0, "T": 0, "G": 0, "C": 0}`. -/
structure BaseCounts where
  a : Nat
  t : Nat
  g : Nat
  c : Nat
deriving DecidableEq

/-- The freshly created all-zero counts dict. -/
def zeroCounts : BaseCounts := ⟨0, 0, 0, 0⟩

/-- `if base in "ATGC": base_content_per_position[i][base] += 1`:
symbols outside A/T/G/C leave the counts unchanged. -/
def bumpBase (bc : BaseCounts) (ch : Char) : BaseCounts :=
  if ch = 'A' then { bc with a := bc.a + 1 }
  else if ch = 'T' then { bc with t := bc.t + 1 }
  else if ch = 'G' then { bc with g := bc.g + 1 }
  else if ch = 'C' then { bc with c := bc.c + 1 }
  else bc

/-- The `base_content_per_position` update of `run_analysis` lines 137-139:
an entry is created for every position a read reaches (even for a non-ATGC
symbol), and only A/T/G/C symbols increment a counter. -/
def contentPosIngest : List (Nat × BaseCounts) → List Char → Nat → List (Nat × BaseCounts)
  | m, [], _ => m
  | m, b :: bs, i =>
    contentPosIngest (setPos m i (bumpBase ((lookupPos m i).getD zeroCounts) b)) bs (i + 1)

/-- The mutable state of `run_analysis` (lines 115-139). -/
structure GuiState where
  sequence_lengths : List Nat
  quality_per_position : List (Nat × List Int)
  base_content_per_position : List (Nat × BaseCounts)
  total_sequences : Nat
  total_length : Nat
deriving DecidableEq

/-- The empty initial state of `run_analysis`. -/
def initGui : GuiState := ⟨[], [], [], 0, 0⟩

/-- One iteration of the `for record in reader.read()` loop of
`run_analysis`: the sequence and the quality list are processed by
independent loops, with no length comparison between them. -/
def guiIngest (st : GuiState) (r : Record) : GuiState :=
  { sequence_lengths := st.sequence_lengths ++ [r.sequence.length]
    quality_per_position := qualPosIngest st.quality_per_position r.quality 0
    base_content_per_position := contentPosIngest st.base_content_per_position r.sequence 0
    total_sequences := st.total_sequences + 1
    total_length := st.total_length + r.sequence.length }

/-- The full ingestion pass of `run_analysis` over the record stream. -/
def run_analysis_state (records : List Record) : GuiState :=
  records.foldl guiIngest initGui

/-- The summary text block of `run_analysis` (lines 147-156). -/
structure GuiSummary where
  total_sequences : Nat
  total_length : Nat
  mean_length : ℚ
  min_length : Nat
  max_length : Nat
deriving DecidableEq

/-- `run_analysis` summary derivation: on `total_sequences == 0` the method
inserts a file-is-empty message and returns without a summary (`none`);
otherwise it reports totals, `mean_length = total_length / total_sequences`,
and min/max of the collected lengths. -/
def run_analysis (records : List Record) : Option GuiSummary :=
  let st := run_analysis_state records
  if st.total_sequences = 0 then none
  else
    some { total_sequences := st.total_sequences
           total_length := st.total_length
           mean_length := (st.total_length : ℚ) / (st.total_sequences : ℚ)
           min_length := st.sequence_lengths.min?.getD 0
           max_length := st.sequence_lengths.max?.getD 0 }

/-- The per-position percentages drawn by `draw_content_plot` (lines
235-239): `total = sum(content_data[p].values())` is the sum of the four
A/T/G/C counters only, and each percentage is
`count / total * 100 if total else 0`. -/
def contentPercent (bc : BaseCounts) : ℚ × ℚ × ℚ × ℚ :=
  let total := bc.a + bc.t + bc.g + bc.c
  if total = 0 then (0, 0, 0, 0)
  else ((bc.a : ℚ) / (total : ℚ) * 100, (bc.t : ℚ) / (total : ℚ) * 100,
        (bc.g : ℚ) / (total : ℚ) * 100, (bc.c : ℚ) / (total : ℚ) * 100)

/-- Sum of the four percentages of a `contentPercent` tuple. -/
def percSum (p : ℚ × ℚ × ℚ × ℚ) : ℚ := p.1 + p.2.1 + p.2.2.1 + p.2.2.2

/-! ### Observation helpers used to state the claims -/

/-- The bases actually observed at position `p` across the stream: one base
from every read long enough to reach `p`. -/
def observedBasesAt (records : List Record) (p : Nat) : List Char :=
  records.filterMap fun r => r.sequence[p]?

/-- Python's `base in "ATGC"` test. -/
def isATGC (ch : Char) : Bool :=
  ch == 'A' || ch == 'T' || ch == 'G' || ch == 'C'

/-- Total number of raw quality scores stored in the
`quality_per_position` accumulator. -/
def storedQualityValues (m : List (Nat × List Int)) : Nat :=
  (m.map fun e => e.2.length).sum

/-- Number of distinct read lengths in the stream. -/
def distinctLengthCount (records : List Record) : Nat :=
  ((records.map fun r => r.sequence.length).dedup).length

/-- Maximum read length in the stream (0 for an empty stream). -/
def maxReadLength (records : List Record) : Nat :=
  ((records.map fun r => r.sequence.length).max?).getD 0

/-- The first-appearance order of the values of a list: the key order of a
Python dict built by repeated `get`/assignment over the list. -/
def insertionOrder (l : List Nat) : List Nat :=
  l.foldl (fun ks n => if n ∈ ks then ks else ks ++ [n]) []

/-- The ingest-then-compute pipeline as one function: every derived result
of the three entry points from the same record stream. -/
def full_pipeline (records : List Record) :
    Option BasicStats × List LengthEntry × Option QualitySummary × Option GuiSummary :=
  (stats_command records, length_distribution records,
   quality_command records, run_analysis records)

/-! ### Characterization of the basic-stats accumulator -/

/-- Folding `ingestBasic` from any starting state adds the record count, the
length sums, the collected lengths and the GC counts componentwise. -/
theorem foldl_ingestBasic (records : List Record) (st : BasicStatsData) :
    records.foldl ingestBasic st =
      { total_sequences := st.total_sequences + records.length
        total_length := st.total_length + (records.map fun r => r.sequence.length).sum
        sequence_lengths := st.sequence_lengths ++ records.map fun r => r.sequence.length
        gc_count := st.gc_count + (records.map fun r => countGC r.sequence).sum
        total_bases := st.total_bases + (records.map fun r => r.sequence.length).sum } := by
  induction records generalizing st with
  | nil => simp
  | cons r rs ih =>
    rw [List.foldl_cons, ih]
    simp [ingestBasic]
    refine ⟨by omega, by omega, by omega⟩

/-- The accumulated `total_sequences` is the number of records. -/
theorem calc_total_sequences (records : List Record) :
    (calculate_basic_stats records).total_sequences = records.length := by
  rw [calculate_basic_stats, foldl_ingestBasic]; simp [initBasic]

/-- The accumulated `total_length` is the sum of the sequence lengths. -/
theorem calc_total_length (records : List Record) :
    (calculate_basic_stats records).total_length =
      (records.map fun r => r.sequence.length).sum := by
  rw [calculate_basic_stats, foldl_ingestBasic]; simp [initBasic]

/-- The accumulated `total_bases` is also the sum of the sequence lengths. -/
theorem calc_total_bases (records : List Record) :
    (calculate_basic_stats records).total_bases =
      (records.map fun r => r.sequence.length).sum := by
  rw [calculate_basic_stats, foldl_ingestBasic]; simp [initBasic]

/-- The collected `sequence_lengths` list is the list of sequence lengths. -/
theorem calc_sequence_lengths (records : List Record) :
    (calculate_basic_stats records).sequence_lengths =
      records.map fun r => r.sequence.length := by
  rw [calculate_basic_stats, foldl_ingestBasic]; simp [initBasic]

/-- The accumulated `gc_count` is the sum of the per-record GC counts. -/
theorem calc_gc_count (records : List Record) :
    (calculate_basic_stats records).gc_count =
      (records.map fun r => countGC r.sequence).sum := by
  rw [calculate_basic_stats, foldl_ingestBasic]; simp [initBasic]

/-- A record's GC count never exceeds its length. -/
theorem countGC_le_length (s : List Char) : countGC s ≤ s.length :=
  List.length_filter_le _ s

/-- C10: after ingesting any finite stream, the accumulated `total_bases`
equals `total_length`: both are incremented by the sequence length of every
record, whatever symbols it contains, so the denominator of `gc_percent`
equals the reported total nucleotide count. -/
theorem total_bases_eq_total_length (records : List Record) :
    (calculate_basic_stats records).total_bases =
      (calculate_basic_stats records).total_length := by
  rw [calc_total_bases, calc_total_length]

/-! ### Characterization of the GUI accumulator -/

/-- Folding `guiIngest` adds one to `total_sequences` per record. -/
theorem foldl_guiIngest_total_sequences (records : List Record) (st : GuiState) :
    (records.foldl guiIngest st).total_sequences = st.total_sequences + records.length := by
  induction records generalizing st with
  | nil => simp
  | cons r rs ih => rw [List.foldl_cons, ih]; simp [guiIngest]; omega

/-- Folding `guiIngest` accumulates the quality-per-position map
independently of the other fields. -/
theorem foldl_guiIngest_quality (records : List Record) (st : GuiState) :
    (records.foldl guiIngest st).quality_per_position =
      records.foldl (fun m r => qualPosIngest m r.quality 0) st.quality_per_position := by
  induction records generalizing st with
  | nil => rfl
  | cons r rs ih => rw [List.foldl_cons, ih]; rfl

/-- Folding `guiIngest` accumulates the base-content map independently of
the other fields. -/
theorem foldl_guiIngest_content (records : List Record) (st : GuiState) :
    (records.foldl guiIngest st).base_content_per_position =
      records.foldl (fun m r => contentPosIngest m r.sequence 0) st.base_content_per_position := by
  induction records generalizing st with
  | nil => rfl
  | cons r rs ih => rw [List.foldl_cons, ih]; rfl

/-! ### C6: basic statistics -/

/-- C6 counterexample: on an empty stream (`total_sequences == 0`) the
`stats` command returns early with a no-data message and computes no
statistics at all, so no `mean_length` (in particular not the value 0) is
ever produced, contrary to the claim. -/
theorem empty_stream_yields_no_basic_stats :
    stats_command [] = none ∧ (calculate_basic_stats []).total_sequences = 0 := by
  decide

/-- C6 as amended: for every nonempty stream the basic statistics satisfy
`total_length = Σ length(seq)`, `mean_length = total_length/total_sequences`,
`min_length`/`max_length` are the minimum and maximum read lengths, and
`gc_percent = gc_count/total_bases*100` when `total_bases > 0` and `0`
otherwise, hence always lies in `[0, 100]`; for an empty stream the command
produces no statistics instead of reporting `mean_length = 0`. -/
theorem basic_stats_characterization (records : List Record) (h : records ≠ []) :
    ∃ s, stats_command records = some s ∧
      s.total_sequences = records.length ∧
      s.total_length = (records.map fun r => r.sequence.length).sum ∧
      s.mean_length = (s.total_length : ℚ) / (s.total_sequences : ℚ) ∧
      (records.map fun r => r.sequence.length).min? = some s.min_length ∧
      (records.map fun r => r.sequence.length).max? = some s.max_length ∧
      ((calculate_basic_stats records).total_bases = 0 → s.gc_percent = 0) ∧
      (0 < (calculate_basic_stats records).total_bases →
        s.gc_percent = ((calculate_basic_stats records).gc_count : ℚ) /
          ((calculate_basic_stats records).total_bases : ℚ) * 100) ∧
      0 ≤ s.gc_percent ∧ s.gc_percent ≤ 100 := by
  have hts : (calculate_basic_stats records).total_sequences ≠ 0 := by
    rw [calc_total_sequences]
    simpa using h
  have hmapne : (records.map fun r => r.sequence.length) ≠ [] := by
    simpa using h
  refine ⟨_, by simp only [stats_command]; rw [if_neg hts], ?_⟩
  rw [calc_total_sequences, calc_total_length, calc_sequence_lengths]
  have hgc_le : (calculate_basic_stats records).gc_count ≤
      (calculate_basic_stats records).total_bases := by
    rw [calc_gc_count, calc_total_bases]
    exact List.sum_le_sum fun r _ => countGC_le_length r.sequence
  refine ⟨rfl, rfl, rfl, ?_, ?_, ?_, ?_, ?_, ?_⟩
  · rcases hm : (records.map fun r => r.sequence.length).min? with _ | m
    · exact absurd (List.min?_eq_none_iff.mp hm) hmapne
    · simp [hm]
  · rcases hm : (records.map fun r => r.sequence.length).max? with _ | m
    · exact absurd (List.max?_eq_none_iff.mp hm) hmapne
    · simp [hm]
  · intro h0
    simp [h0]
  · intro h0
    simp [h0]
  · dsimp only
    split
    · positivity
    · exact le_refl 0
  · dsimp only
    split
    · rename 0 < (calculate_basic_stats records).total_bases => hpos
      have hb : (0 : ℚ) < ((calculate_basic_stats records).total_bases : ℚ) := by
        exact_mod_cast hpos
      have hle : ((calculate_basic_stats records).gc_count : ℚ) ≤
          ((calculate_basic_stats records).total_bases : ℚ) := by
        exact_mod_cast hgc_le
      rw [div_mul_eq_mul_div, div_le_iff₀ hb]
      nlinarith
    · norm_num

/-- Witness for `basic_stats_characterization` at the concrete stream
`[("GA", [30, 30])]`. -/
theorem basic_stats_characterization_witness :
    ∃ s, stats_command [⟨['G', 'A'], [30, 30]⟩] = some s ∧
      s.total_sequences = [(⟨['G', 'A'], [30, 30]⟩ : Record)].length ∧
      s.total_length = ([(⟨['G', 'A'], [30, 30]⟩ : Record)].map fun r => r.sequence.length).sum ∧
      s.mean_length = (s.total_length : ℚ) / (s.total_sequences : ℚ) ∧
      ([(⟨['G', 'A'], [30, 30]⟩ : Record)].map fun r => r.sequence.length).min? = some s.min_length ∧
      ([(⟨['G', 'A'], [30, 30]⟩ : Record)].map fun r => r.sequence.length).max? = some s.max_length ∧
      ((calculate_basic_stats [⟨['G', 'A'], [30, 30]⟩]).total_bases = 0 → s.gc_percent = 0) ∧
      (0 < (calculate_basic_stats [⟨['G', 'A'], [30, 30]⟩]).total_bases →
        s.gc_percent = ((calculate_basic_stats [⟨['G', 'A'], [30, 30]⟩]).gc_count : ℚ) /
          ((calculate_basic_stats [⟨['G', 'A'], [30, 30]⟩]).total_bases : ℚ) * 100) ∧
      0 ≤ s.gc_percent ∧ s.gc_percent ≤ 100 :=
  basic_stats_characterization [⟨['G', 'A'], [30, 30]⟩] (by decide)

/-! ### C1: no malformed-record validation -/

/-- C1 counterexample: a record whose sequence length (2) differs from its
quality length (3) is ingested without any failure by all three entry
points; the pass continues to the following record and a summary is
produced, so no `MalformedRecord` abort exists. -/
theorem malformed_record_does_not_abort :
    (⟨['A', 'T'], [30, 30, 30]⟩ : Record).sequence.length ≠
      (⟨['A', 'T'], [30, 30, 30]⟩ : Record).quality.length ∧
    (stats_command [⟨['A', 'T'], [30, 30, 30]⟩, ⟨['G'], [40]⟩]).isSome = true ∧
    (quality_command [⟨['A', 'T'], [30, 30, 30]⟩, ⟨['G'], [40]⟩]).isSome = true ∧
    (run_analysis [⟨['A', 'T'], [30, 30, 30]⟩, ⟨['G'], [40]⟩]).isSome = true ∧
    (run_analysis_state [⟨['A', 'T'], [30, 30, 30]⟩, ⟨['G'], [40]⟩]).total_sequences = 2 := by
  refine ⟨by decide, by decide, by decide, by decide, by decide⟩

/-- C1 as amended: ingestion performs no sequence/quality length validation
at all. Every record of every stream, mismatched or not, is counted and
processed (the stats path reads only the sequence, the quality path only
the quality list, the GUI path processes the two independently), the pass
never aborts, and a summary is produced whenever the stream is nonempty. -/
theorem ingestion_never_validates_lengths (records : List Record) (h : records ≠ []) :
    (run_analysis_state records).total_sequences = records.length ∧
    (∃ s, run_analysis records = some s ∧ s.total_sequences = records.length) ∧
    ∃ t, stats_command records = some t ∧ t.total_sequences = records.length := by
  have hgui : (run_analysis_state records).total_sequences = records.length := by
    rw [run_analysis_state, foldl_guiIngest_total_sequences]
    simp [initGui]
  have hne : (run_analysis_state records).total_sequences ≠ 0 := by
    rw [hgui]
    simpa using h
  have hts : (calculate_basic_stats records).total_sequences ≠ 0 := by
    rw [calc_total_sequences]
    simpa using h
  refine ⟨hgui, ⟨_, by simp only [run_analysis]; rw [if_neg hne], hgui⟩,
    ⟨_, by simp only [stats_command]; rw [if_neg hts], calc_total_sequences records⟩⟩

/-- Witness for `ingestion_never_validates_lengths` at a concrete stream
whose single record has sequence length 1 but quality length 3. -/
theorem ingestion_never_validates_lengths_witness :
    (run_analysis_state [⟨['A'], [1, 2, 3]⟩]).total_sequences =
      [(⟨['A'], [1, 2, 3]⟩ : Record)].length ∧
    (∃ s, run_analysis [⟨['A'], [1, 2, 3]⟩] = some s ∧
      s.total_sequences = [(⟨['A'], [1, 2, 3]⟩ : Record)].length) ∧
    ∃ t, stats_command [⟨['A'], [1, 2, 3]⟩] = some t ∧
      t.total_sequences = [(⟨['A'], [1, 2, 3]⟩ : Record)].length :=
  ingestion_never_validates_lengths [⟨['A'], [1, 2, 3]⟩] (by decide)

/-! ### C2: division-by-zero behaviour -/

/-- When every record has a nonempty quality list, the quality loop
completes, yields one entry per record, and every entry has a positive
length. -/
theorem collectQuality_eq_some (records : List Record)
    (h : ∀ r ∈ records, r.quality ≠ []) :
    ∃ l, collectQuality records = some l ∧ l.length = records.length ∧
      ∀ s ∈ l, 1 ≤ s.length := by
  induction records with
  | nil => exact ⟨[], rfl, rfl, by simp⟩
  | cons r rs ih =>
    obtain ⟨l, hl, hlen, hpos⟩ := ih fun x hx => h x (List.mem_cons_of_mem _ hx)
    obtain ⟨q, qs, hq⟩ := List.exists_cons_of_ne_nil (h r (List.mem_cons_self _ _))
    rcases es : seqQualityStats r.quality with _ | s0
    · rw [hq] at es
      simp [seqQualityStats] at es
    · refine ⟨s0 :: l, ?_, by simp [hlen], ?_⟩
      · simp only [collectQuality, es, hl]
      · intro s hs
        rcases List.mem_cons.mp hs with rfl | hs
        · rw [hq, seqQualityStats, Option.some_inj] at es
          rw [← es]
          simp
        · exact hpos s hs

/-- C2 counterexample: a zero-length read makes
`sum(qual_scores) / len(qual_scores)` raise `ZeroDivisionError`; the pass
aborts with an error and no summary is produced, instead of the division
yielding 0 or a not-applicable marker. Even a stream that also contains a
nonempty read produces nothing once the empty read is hit. -/
theorem zero_length_read_raises_div_zero :
    seqQualityStats ([] : List Int) = none ∧
    quality_command [⟨[], []⟩] = none ∧
    quality_command [⟨['A'], [30]⟩, ⟨[], []⟩] = none := by
  decide

/-- C2 as amended: the quality analysis guards none of its divisions — a
zero-length read aborts the pass with a raised division error and no
summary (never a 0 or a marker); only the `stats` command's `gc_percent`
has an explicit zero-denominator guard yielding 0. For streams whose every
read is nonempty, the quality computation completes and produces a
summary. -/
theorem division_guards_characterization (records : List Record) :
    ((records ≠ [] ∧ ∀ r ∈ records, r.quality ≠ []) →
      (quality_command records).isSome = true) ∧
    (∀ s, stats_command records = some s →
      (calculate_basic_stats records).total_bases = 0 → s.gc_percent = 0) := by
  constructor
  · rintro ⟨h1, h2⟩
    obtain ⟨l, hl, hlen, hpos⟩ := collectQuality_eq_some records h2
    cases l with
    | nil =>
      exact absurd (List.length_eq_zero.mp hlen.symm) h1
    | cons s0 rest =>
      have hne : ((s0 :: rest).map SeqQuality.length).sum ≠ 0 := by
        have h1 := hpos s0 (List.mem_cons_self _ _)
        simp only [List.map_cons, List.sum_cons]
        omega
      simp only [quality_command, hl]
      rw [if_neg hne]
      rfl
  · intro s hs h0
    by_cases ht : (calculate_basic_stats records).total_sequences = 0
    · simp [stats_command, ht] at hs
    · simp only [stats_command, if_neg ht, Option.some_inj] at hs
      subst hs
      simp [h0]

/-- Witness for `division_guards_characterization`: on the concrete
one-read stream `[("A", [30])]` the quality command produces a summary. -/
theorem division_guards_characterization_witness :
    (quality_command [⟨['A'], [30]⟩]).isSome = true :=
  (division_guards_characterization [⟨['A'], [30]⟩]).1 ⟨by decide, by decide⟩

/-! ### C5: Q20 versus Q30 -/

/-- In every per-record quality entry, the Q30 count never exceeds the Q20
count (every base with quality at least 30 also has quality at least 20). -/
theorem seqQualityStats_q30_le_q20 {qual : List Int} {s : SeqQuality}
    (h : seqQualityStats qual = some s) : s.q30_count ≤ s.q20_count := by
  cases qual with
  | nil => exact absurd h (by simp [seqQualityStats])
  | cons q qs =>
    rw [seqQualityStats, Option.some_inj] at h
    subst h
    simp only [← List.countP_eq_length_filter]
    refine List.countP_mono_left fun x _ hx => ?_
    simp only [decide_eq_true_eq] at hx ⊢
    omega

/-- Every entry collected by the quality loop satisfies the Q30-to-Q20
count inequality. -/
theorem collectQuality_q30_le_q20 (records : List Record) (l : List SeqQuality)
    (h : collectQuality records = some l) :
    ∀ s ∈ l, s.q30_count ≤ s.q20_count := by
  induction records generalizing l with
  | nil =>
    rw [collectQuality, Option.some_inj] at h
    subst h
    simp
  | cons r rs ih =>
    rw [collectQuality] at h
    rcases e : seqQualityStats r.quality with _ | s0
    · rw [e] at h; cases h
    · rw [e] at h
      rcases e2 : collectQuality rs with _ | l0
      · rw [e2] at h; cases h
      · rw [e2, Option.some_inj] at h
        subst h
        intro s hs
        rcases List.mem_cons.mp hs with rfl | hs
        · exact seqQualityStats_q30_le_q20 e
        · exact ih l0 e2 s hs

/-- C5: whenever the quality command produces a summary, the computed
`q20_percentage` is at least the computed `q30_percentage`: every Q30 base
also counts as a Q20 base and both percentages share the denominator
`total_bases`. -/
theorem q20_percentage_ge_q30_percentage (records : List Record) (s : QualitySummary)
    (h : quality_command records = some s) :
    s.q30_percentage ≤ s.q20_percentage := by
  rcases e : collectQuality records with _ | l
  · simp [quality_command, e] at h
  · cases l with
    | nil => simp [quality_command, e] at h
    | cons s0 rest =>
      have hmono := collectQuality_q30_le_q20 records (s0 :: rest) e
      simp only [quality_command, e] at h
      by_cases h0 : ((s0 :: rest).map SeqQuality.length).sum = 0
      · rw [if_pos h0] at h; cases h
      · rw [if_neg h0, Option.some_inj] at h
        subst h
        have hsum : ((s0 :: rest).map SeqQuality.q30_count).sum ≤
            ((s0 :: rest).map SeqQuality.q20_count).sum :=
          List.sum_le_sum fun t ht => hmono t ht
        have hb : (0 : ℚ) < (((s0 :: rest).map SeqQuality.length).sum : ℚ) := by
          exact_mod_cast Nat.pos_of_ne_zero h0
        have hq : ((((s0 :: rest).map SeqQuality.q30_count).sum : ℚ)) ≤
            (((s0 :: rest).map SeqQuality.q20_count).sum : ℚ) := by
          exact_mod_cast hsum
        dsimp only
        gcongr

/-- Witness for `q20_percentage_ge_q30_percentage` at the concrete stream
`[("A", [30])]`, whose summary has both percentages equal to 100. -/
theorem q20_percentage_ge_q30_percentage_witness :
    ∃ s, quality_command [⟨['A'], [30]⟩] = some s ∧
      s.q30_percentage ≤ s.q20_percentage := by
  have hEq : quality_command [⟨['A'], [30]⟩] =
      some ⟨1, 1, 30, 30, 30, 100, 100, "Отличное"⟩ := by
    norm_num [quality_command, collectQuality, seqQualityStats, classify_grade]
  exact ⟨_, hEq, q20_percentage_ge_q30_percentage _ _ hEq⟩

/-! ### C7: grade classification -/

/-- C7: `classify_grade` applies its rules in order with first match
winning: the grade is the excellent one exactly when `q30 >= 80`, the good
one exactly when that failed and `q30 >= 60`, the acceptable one exactly
when both failed and `q20 >= 80`, and the poor one otherwise. -/
theorem classify_grade_first_match (q20_percentage q30_percentage : ℚ) :
    (classify_grade q20_percentage q30_percentage = "Отличное" ↔
      80 ≤ q30_percentage) ∧
    (classify_grade q20_percentage q30_percentage = "Хорошее" ↔
      ¬ 80 ≤ q30_percentage ∧ 60 ≤ q30_percentage) ∧
    (classify_grade q20_percentage q30_percentage = "Удовлетворительное" ↔
      ¬ 80 ≤ q30_percentage ∧ ¬ 60 ≤ q30_percentage ∧ 80 ≤ q20_percentage) ∧
    (classify_grade q20_percentage q30_percentage = "Плохое" ↔
      ¬ 80 ≤ q30_percentage ∧ ¬ 60 ≤ q30_percentage ∧ ¬ 80 ≤ q20_percentage) := by
  unfold classify_grade
  split_ifs with h1 h2 h3 <;> simp_all

/-! ### C8: determinism of the pipeline -/

/-- C8: the ingest-then-compute pipeline is deterministic: two runs over
the same finite record stream produce identical basic statistics, length
distributions, quality summaries (grade included) and GUI summaries. -/
theorem pipeline_deterministic (records₁ records₂ : List Record)
    (h : records₁ = records₂) :
    full_pipeline records₁ = full_pipeline records₂ := by
  rw [h]

/-- Witness for `pipeline_deterministic` at a concrete two-record stream. -/
theorem pipeline_deterministic_witness :
    full_pipeline [⟨['A', 'T'], [30, 28]⟩, ⟨['G'], [12]⟩] =
      full_pipeline [⟨['A', 'T'], [30, 28]⟩, ⟨['G'], [12]⟩] :=
  pipeline_deterministic _ _ rfl

/-! ### C9: memory shape of the per-position quality accumulator -/

/-- Appending one raw quality score to a position's list grows the total
number of stored values by exactly one. -/
theorem storedQualityValues_setPos_append (m : List (Nat × List Int)) (p : Nat) (q : Int) :
    storedQualityValues (setPos m p ((lookupPos m p).getD [] ++ [q])) =
      storedQualityValues m + 1 := by
  induction m with
  | nil => simp [setPos, lookupPos, storedQualityValues]
  | cons e es ih =>
    by_cases hp : e.1 = p
    · simp [setPos, lookupPos, hp, storedQualityValues]
      omega
    · simp only [setPos, lookupPos, hp, if_false, if_neg hp, storedQualityValues,
        List.map_cons, List.sum_cons] at ih ⊢
      omega

/-- Ingesting one record's quality list stores one raw value per base. -/
theorem storedQualityValues_qualPosIngest (qual : List Int)
    (m : List (Nat × List Int)) (i : Nat) :
    storedQualityValues (qualPosIngest m qual i) =
      storedQualityValues m + qual.length := by
  induction qual generalizing m i with
  | nil => simp [qualPosIngest]
  | cons q qs ih =>
    rw [qualPosIngest, ih, storedQualityValues_setPos_append]
    simp only [List.length_cons]
    omega

/-- C9 as amended: `quality_per_position` accumulates raw per-base values —
after ingesting any stream, the total number of stored quality scores is
exactly the total number of bases read, so the accumulator grows with the
total base count rather than being bounded by the number of distinct read
lengths plus the maximum read length. -/
theorem quality_per_position_stores_every_base (records : List Record) :
    storedQualityValues (run_analysis_state records).quality_per_position =
      (records.map fun r => r.quality.length).sum := by
  rw [run_analysis_state, foldl_guiIngest_quality]
  have h : ∀ (rs : List Record) (m : List (Nat × List Int)),
      storedQualityValues (rs.foldl (fun acc r => qualPosIngest acc r.quality 0) m) =
        storedQualityValues m + (rs.map fun r => r.quality.length).sum := by
    intro rs
    induction rs with
    | nil => simp
    | cons r rest ih =>
      intro m
      rw [List.foldl_cons, ih, storedQualityValues_qualPosIngest]
      simp
      omega
  rw [h]
  simp [initGui, storedQualityValues]

/-- C9 counterexample: after three one-base records the position-0 entry is
the growing list of the three raw scores `[5, 6, 7]`; three values are
stored although the number of distinct read lengths plus the maximum read
length is only 2, so memory is not bounded by that quantity. -/
theorem quality_accumulator_grows_with_records :
    lookupPos (run_analysis_state
        [⟨['A'], [5]⟩, ⟨['A'], [6]⟩, ⟨['A'], [7]⟩]).quality_per_position 0 =
      some [5, 6, 7] ∧
    storedQualityValues (run_analysis_state
        [⟨['A'], [5]⟩, ⟨['A'], [6]⟩, ⟨['A'], [7]⟩]).quality_per_position = 3 ∧
    distinctLengthCount [⟨['A'], [5]⟩, ⟨['A'], [6]⟩, ⟨['A'], [7]⟩] +
      maxReadLength [⟨['A'], [5]⟩, ⟨['A'], [6]⟩, ⟨['A'], [7]⟩] = 2 := by
  decide

/-! ### C3: length-distribution selection and tie-breaking -/

/-- The counts dict that the `length_counts` loop produces: keys in
first-appearance order, each paired with its total occurrence count. -/
def mkCounts (s : List Nat) : List (Nat × Nat) :=
  (insertionOrder s).map fun k => (k, s.count k)

/-- Membership in the first-appearance fold. -/
theorem mem_foldl_insertionOrder (s : List Nat) (acc : List Nat) (x : Nat) :
    x ∈ s.foldl (fun ks n => if n ∈ ks then ks else ks ++ [n]) acc ↔
      x ∈ acc ∨ x ∈ s := by
  induction s generalizing acc with
  | nil => simp
  | cons a as ih =>
    rw [List.foldl_cons, ih]
    by_cases ha : a ∈ acc
    · simp only [if_pos ha, List.mem_cons]
      constructor
      · rintro (h | h)
        · exact Or.inl h
        · exact Or.inr (Or.inr h)
      · rintro (h | h | h)
        · exact Or.inl h
        · exact Or.inl (h ▸ ha)
        · exact Or.inr h
    · simp only [if_neg ha, List.mem_append, List.mem_singleton, List.mem_cons]
      tauto

/-- `insertionOrder` contains exactly the values of its input. -/
theorem mem_insertionOrder {s : List Nat} {x : Nat} :
    x ∈ insertionOrder s ↔ x ∈ s := by
  rw [insertionOrder, mem_foldl_insertionOrder]
  simp

/-- Extending the input by one value either leaves the first-appearance
order unchanged (value already seen) or appends the new value. -/
theorem insertionOrder_append_singleton (s : List Nat) (n : Nat) :
    insertionOrder (s ++ [n]) =
      if n ∈ s then insertionOrder s else insertionOrder s ++ [n] := by
  rw [insertionOrder, List.foldl_append, List.foldl_cons, List.foldl_nil]
  by_cases h : n ∈ s
  · have hm : n ∈ s.foldl (fun ks n => if n ∈ ks then ks else ks ++ [n]) [] := by
      rw [mem_foldl_insertionOrder]
      exact Or.inr h
    rw [if_pos hm, if_pos h, insertionOrder]
  · have hm : n ∉ s.foldl (fun ks n => if n ∈ ks then ks else ks ++ [n]) [] := by
      rw [mem_foldl_insertionOrder]
      simpa using h
    rw [if_neg hm, if_neg h, insertionOrder]

/-- One `length_counts` update step preserves the `mkCounts`
characterization. -/
theorem updateLengthCounts_mkCounts (seen : List Nat) (n : Nat) :
    updateLengthCounts (mkCounts seen) n = mkCounts (seen ++ [n]) := by
  by_cases h : n ∈ seen
  · have hany : (mkCounts seen).any (fun p => p.1 == n) = true := by
      rw [List.any_eq_true]
      refine ⟨(n, seen.count n), ?_, by simp⟩
      exact List.mem_map.mpr ⟨n, mem_insertionOrder.mpr h, rfl⟩
    rw [updateLengthCounts, if_pos hany, mkCounts, mkCounts,
      insertionOrder_append_singleton, if_pos h, List.map_map]
    refine List.map_congr_left fun k hk => ?_
    by_cases hkn : k = n
    · subst hkn
      simp [List.count_append]
    · simp [hkn, List.count_append, List.count_singleton,
        Ne.symm hkn]
  · have hany : ¬ (mkCounts seen).any (fun p => p.1 == n) = true := by
      rw [List.any_eq_true]
      rintro ⟨p, hp, hpn⟩
      obtain ⟨k, hk, rfl⟩ := List.mem_map.mp hp
      simp only [beq_iff_eq] at hpn
      exact h (hpn ▸ mem_insertionOrder.mp hk)
    rw [updateLengthCounts, if_neg hany, mkCounts, mkCounts,
      insertionOrder_append_singleton, if_neg h, List.map_append]
    congr 1
    · refine List.map_congr_left fun k hk => ?_
      have hkn : k ≠ n := fun he => h (he ▸ mem_insertionOrder.mp hk)
      simp [List.count_append, List.count_singleton, Ne.symm hkn]
    · simp [List.count_append, List.count_eq_zero_of_not_mem h]

/-- The `length_counts` dict is exactly `mkCounts`: keys in first-appearance
order, values the occurrence counts. -/
theorem lengthCounts_eq_mkCounts (lens : List Nat) :
    lengthCounts lens = mkCounts lens := by
  have h : ∀ (rest seen : List Nat),
      rest.foldl updateLengthCounts (mkCounts seen) = mkCounts (seen ++ rest) := by
    intro rest
    induction rest with
    | nil => simp
    | cons a as ih =>
      intro seen
      rw [List.foldl_cons, updateLengthCounts_mkCounts, ih]
      simp
  have h0 := h lens []
  simpa [lengthCounts, mkCounts, insertionOrder] using h0

/-- Every entry of the counts dict carries the occurrence count of its
length. -/
theorem lengthCounts_count (lens : List Nat) :
    ∀ p ∈ lengthCounts lens, p.2 = lens.count p.1 := by
  rw [lengthCounts_eq_mkCounts]
  intro p hp
  obtain ⟨k, _, rfl⟩ := List.mem_map.mp hp
  rfl

/-- The keys of the counts dict are the read lengths in first-appearance
order. -/
theorem lengthCounts_keys (lens : List Nat) :
    (lengthCounts lens).map Prod.fst = insertionOrder lens := by
  rw [lengthCounts_eq_mkCounts, mkCounts, List.map_map]
  exact List.map_id _ ▸ List.map_congr_left fun k _ => rfl

/-- C3 counterexample: for the stream with read lengths `[5, 3]` both
lengths occur once, yet the distribution lists length 5 before length 3 —
the tie is broken by first appearance in the stream (Python's stable sort
over dict insertion order), not by ascending length value, which would give
`[3, 5]`. -/
theorem length_distribution_tie_not_ascending :
    ((length_distribution [⟨List.replicate 5 'A', List.replicate 5 30⟩,
        ⟨List.replicate 3 'A', List.replicate 3 30⟩]).map fun e => (e.length, e.count)) =
      [(5, 1), (3, 1)] ∧
    ((length_distribution [⟨List.replicate 5 'A', List.replicate 5 30⟩,
        ⟨List.replicate 3 'A', List.replicate 3 30⟩]).map fun e => e.length) ≠ [3, 5] := by
  decide

/-- C3 as amended: the distribution is the 10 most frequent lengths sorted
by count descending, where equal counts keep the order in which the lengths
first appear in the stream (stable sort over dict insertion order), rather
than ascending length order; each entry carries the length, its occurrence
count, and `count / total_sequences * 100`. -/
theorem length_distribution_characterization (records : List Record) :
    (length_distribution records).Pairwise (fun a b => b.count ≤ a.count) ∧
    (length_distribution records).length ≤ 10 ∧
    (∀ e ∈ length_distribution records,
      e.count = (records.map fun r => r.sequence.length).count e.length ∧
      e.percentage = (e.count : ℚ) / (records.length : ℚ) * 100) ∧
    (∀ x y : Nat × Nat, x.2 = y.2 →
      List.Sublist [x, y] (lengthCounts (records.map fun r => r.sequence.length)) →
      List.Sublist [x, y] (List.insertionSort countGE
        (lengthCounts (records.map fun r => r.sequence.length)))) ∧
    (lengthCounts (records.map fun r => r.sequence.length)).map Prod.fst =
      insertionOrder (records.map fun r => r.sequence.length) := by
  have hld : length_distribution records =
      (sortedLengths (lengthCounts (records.map fun r => r.sequence.length))).map
        fun p => ⟨p.1, p.2, (p.2 : ℚ) / (records.length : ℚ) * 100⟩ := by
    simp only [length_distribution, calc_sequence_lengths, calc_total_sequences]
  have hsorted : (List.insertionSort countGE
      (lengthCounts (records.map fun r => r.sequence.length))).Pairwise countGE :=
    List.sorted_insertionSort countGE _
  refine ⟨?_, ?_, ?_, ?_, lengthCounts_keys _⟩
  · rw [hld]
    rw [List.pairwise_map]
    exact (hsorted.sublist (List.take_sublist 10 _) : _)
  · rw [hld]
    simp [sortedLengths]
  · intro e he
    rw [hld] at he
    obtain ⟨p, hp, rfl⟩ := List.mem_map.mp he
    have hmem : p ∈ lengthCounts (records.map fun r => r.sequence.length) := by
      have := List.mem_of_mem_take hp
      exact (List.mem_insertionSort countGE).mp this
    exact ⟨lengthCounts_count _ p hmem, rfl⟩
  · intro x y hxy hsub
    exact List.pair_sublist_insertionSort (show countGE x y from hxy.ge) hsub

/-- Witness for `length_distribution_characterization`: on the concrete
stream with lengths `[5, 3]`, the tied pair keeps its first-appearance
order `[(5, 1), (3, 1)]` through the sort. -/
theorem length_distribution_characterization_witness :
    List.Sublist [((5 : Nat), (1 : Nat)), (3, 1)] (List.insertionSort countGE
      (lengthCounts (([⟨List.replicate 5 'A', List.replicate 5 30⟩,
        ⟨List.replicate 3 'A', List.replicate 3 30⟩] : List Record).map
          fun r => r.sequence.length))) :=
  (length_distribution_characterization [⟨List.replicate 5 'A', List.replicate 5 30⟩,
      ⟨List.replicate 3 'A', List.replicate 3 30⟩]).2.2.2.1
    (5, 1) (3, 1) rfl (by decide)

/-! ### C4: per-position composition percentages -/

/-- Looking up after a dict update: the updated key maps to the new value,
every other key is unchanged. -/
theorem lookupPos_setPos {β : Type} (m : List (Nat × β)) (p q : Nat) (v : β) :
    lookupPos (setPos m p v) q = if q = p then some v else lookupPos m q := by
  induction m with
  | nil =>
    by_cases h : q = p <;> simp [setPos, lookupPos, h, Ne.symm]
  | cons e es ih =>
    by_cases hep : e.1 = p
    · rw [setPos, if_pos hep]
      by_cases hq : q = p
      · simp [lookupPos, hq]
      · simp only [lookupPos, if_neg hq]
        rw [if_neg (by omega : ¬ p = q), if_neg (by omega : ¬ e.1 = q)]
    · rw [setPos, if_neg hep]
      by_cases heq : e.1 = q
      · simp only [lookupPos, if_pos heq]
        exact (if_neg fun hq : q = p => hep (heq.trans hq)).symm
      · simp only [lookupPos, if_neg heq, ih]

/-- Positions below the running index are untouched by one record's
content loop. -/
theorem contentPosIngest_lookup_lt (seq : List Char) (m : List (Nat × BaseCounts))
    (i p : Nat) (h : p < i) :
    lookupPos (contentPosIngest m seq i) p = lookupPos m p := by
  induction seq generalizing m i with
  | nil => rfl
  | cons b bs ih =>
    rw [contentPosIngest, ih _ _ (by omega), lookupPos_setPos,
      if_neg (by omega : ¬ p = i)]

/-- Positions at or beyond the end of the record are untouched by one
record's content loop. -/
theorem contentPosIngest_lookup_ge (seq : List Char) (m : List (Nat × BaseCounts))
    (i p : Nat) (h : i + seq.length ≤ p) :
    lookupPos (contentPosIngest m seq i) p = lookupPos m p := by
  induction seq generalizing m i with
  | nil => rfl
  | cons b bs ih =>
    rw [List.length_cons] at h
    rw [contentPosIngest, ih _ _ (by omega), lookupPos_setPos,
      if_neg (by omega : ¬ p = i)]

/-- Within the record, position `i + j` receives exactly one `bumpBase`
with the record's base at offset `j`. -/
theorem contentPosIngest_lookup_get (seq : List Char) (m : List (Nat × BaseCounts))
    (i j : Nat) (hj : j < seq.length) :
    lookupPos (contentPosIngest m seq i) (i + j) =
      some (bumpBase ((lookupPos m (i + j)).getD zeroCounts) (seq.get ⟨j, hj⟩)) := by
  induction seq generalizing m i j with
  | nil => exact absurd hj (by simp)
  | cons b bs ih =>
    cases j with
    | zero =>
      rw [contentPosIngest, contentPosIngest_lookup_lt _ _ _ _ (by omega),
        lookupPos_setPos, if_pos (by omega : i + 0 = i)]
      rfl
    | succ j' =>
      have hj' : j' < bs.length := by
        rw [List.length_cons] at hj
        omega
      have harith : i + (j' + 1) = (i + 1) + j' := by omega
      rw [contentPosIngest, harith, ih _ _ _ hj', lookupPos_setPos,
        if_neg (by omega : ¬ (i + 1) + j' = i)]
      rfl

/-- When no read of the stream reaches position `p`, nothing is observed
there. -/
theorem observedBasesAt_eq_nil (records : List Record) (p : Nat)
    (h : ∀ r ∈ records, r.sequence.length ≤ p) :
    observedBasesAt records p = [] := by
  induction records with
  | nil => rfl
  | cons r rs ih =>
    rw [observedBasesAt, List.filterMap_cons,
      List.getElem?_eq_none (h r (List.mem_cons_self _ _))]
    exact ih fun x hx => h x (List.mem_cons_of_mem _ hx)

/-- Folding `bumpBase` over a list of observed bases. -/
def addBases (bc : BaseCounts) (l : List Char) : BaseCounts :=
  l.foldl bumpBase bc

/-- Characterization of the accumulated base-content map: a position has an
entry exactly when some read reaches it, and the entry is the result of
bumping the start value with every base observed there, in stream order. -/
theorem contentFold_lookup (records : List Record) (m : List (Nat × BaseCounts))
    (p : Nat) :
    lookupPos (records.foldl (fun acc r => contentPosIngest acc r.sequence 0) m) p =
      if ∃ r ∈ records, p < r.sequence.length then
        some (addBases ((lookupPos m p).getD zeroCounts) (observedBasesAt records p))
      else lookupPos m p := by
  induction records generalizing m with
  | nil =>
    rw [if_neg (by simp)]
    rfl
  | cons r rs ih =>
    rw [List.foldl_cons, ih]
    by_cases hr : p < r.sequence.length
    · have hm' : lookupPos (contentPosIngest m r.sequence 0) p =
          some (bumpBase ((lookupPos m p).getD zeroCounts) (r.sequence.get ⟨p, hr⟩)) := by
        have := contentPosIngest_lookup_get r.sequence m 0 p hr
        simpa using this
      have hobs : observedBasesAt (r :: rs) p =
          r.sequence.get ⟨p, hr⟩ :: observedBasesAt rs p := by
        rw [observedBasesAt, List.filterMap_cons, List.getElem?_eq_getElem hr]
        rfl
      have hcons : ∃ r' ∈ r :: rs, p < r'.sequence.length :=
        ⟨r, List.mem_cons_self _ _, hr⟩
      by_cases hrest : ∃ r' ∈ rs, p < r'.sequence.length
      · rw [if_pos hrest, hm', if_pos hcons, hobs]
        rfl
      · rw [if_neg hrest, hm', if_pos hcons, hobs,
          observedBasesAt_eq_nil rs p (by push_neg at hrest; exact fun x hx => hrest x hx)]
        rfl
    · have hm' : lookupPos (contentPosIngest m r.sequence 0) p = lookupPos m p :=
        contentPosIngest_lookup_ge r.sequence m 0 p (by omega)
      have hobs : observedBasesAt (r :: rs) p = observedBasesAt rs p := by
        rw [observedBasesAt, List.filterMap_cons, List.getElem?_eq_none (by omega)]
        rfl
      have hcond : (∃ r' ∈ r :: rs, p < r'.sequence.length) ↔
          ∃ r' ∈ rs, p < r'.sequence.length := by
        constructor
        · rintro ⟨r', hr', hp⟩
          rcases List.mem_cons.mp hr' with rfl | hr'
          · exact absurd hp hr
          · exact ⟨r', hr', hp⟩
        · rintro ⟨r', hr', hp⟩
          exact ⟨r', List.mem_cons_of_mem _ hr', hp⟩
      rw [hobs, hm']
      by_cases hrest : ∃ r' ∈ rs, p < r'.sequence.length
      · rw [if_pos hrest, if_pos (hcond.mpr hrest)]
      · rw [if_neg hrest, if_neg (fun hc => hrest (hcond.mp hc))]

/-- The four counters summed, as `sum(content_data[p].values())` computes
it in `draw_content_plot`. -/
def totalCounts (bc : BaseCounts) : Nat := bc.a + bc.t + bc.g + bc.c

/-- One bump adds one to the total exactly for an A/T/G/C symbol. -/
theorem totalCounts_bumpBase (bc : BaseCounts) (ch : Char) :
    totalCounts (bumpBase bc ch) =
      totalCounts bc + (if isATGC ch then 1 else 0) := by
  rw [bumpBase, isATGC]
  by_cases hA : ch = 'A'
  · simp [hA, totalCounts]
    omega
  · by_cases hT : ch = 'T'
    · simp [hA, hT, totalCounts]
      omega
    · by_cases hG : ch = 'G'
      · simp [hA, hT, hG, totalCounts]
        omega
      · by_cases hC : ch = 'C'
        · simp [hA, hT, hG, hC, totalCounts]
          omega
        · simp [hA, hT, hG, hC, totalCounts]

/-- The accumulated total equals the number of observed A/T/G/C bases. -/
theorem totalCounts_addBases (l : List Char) (bc : BaseCounts) :
    totalCounts (addBases bc l) = totalCounts bc + l.countP isATGC := by
  induction l generalizing bc with
  | nil => simp [addBases]
  | cons b bs ih =>
    rw [addBases, List.foldl_cons, ← addBases, ih, totalCounts_bumpBase,
      List.countP_cons]
    omega

/-- The percentage sum of `draw_content_plot` for one position: exactly 100
when any of the four counters is positive, 0 when all are zero. -/
theorem percSum_contentPercent (bc : BaseCounts) :
    percSum (contentPercent bc) =
      if totalCounts bc = 0 then 0 else 100 := by
  rw [contentPercent, percSum, totalCounts]
  by_cases h : bc.a + bc.t + bc.g + bc.c = 0
  · simp [h]
  · rw [if_neg h, if_neg h]
    have hT : (bc.a : ℚ) + (bc.t : ℚ) + (bc.g : ℚ) + (bc.c : ℚ) ≠ 0 := by
      exact_mod_cast h
    push_cast
    field_simp
    ring

/-- C4 counterexample: at position 0 the stream `[("A", ...), ("N", ...)]`
observes the two bases `A` and `N`; `N` is outside {A,T,G,C}, yet the
computed percentages sum to exactly 100 (not strictly less than 100),
because `draw_content_plot` divides by the A/T/G/C total only. -/
theorem composition_sum_100_despite_non_atgc :
    observedBasesAt [⟨['A'], [30]⟩, ⟨['N'], [30]⟩] 0 = ['A', 'N'] ∧
    isATGC 'N' = false ∧
    lookupPos (run_analysis_state
        [⟨['A'], [30]⟩, ⟨['N'], [30]⟩]).base_content_per_position 0 =
      some ⟨1, 0, 0, 0⟩ ∧
    percSum (contentPercent ⟨1, 0, 0, 0⟩) = 100 := by
  refine ⟨by decide, by decide, by decide, ?_⟩
  norm_num [contentPercent, percSum]

/-- C4 as amended: for every position with an entry in the accumulated
content map, the A/T/G/C percentages are shares of the A/T/G/C bases
observed at that position, so they sum to exactly 100 whenever at least one
observed base there is one of those four symbols — even if other symbols
were also observed — and to 0 when every base observed there is outside
{A,T,G,C}; the sum never exceeds 100. -/
theorem composition_percentage_characterization (records : List Record) (p : Nat)
    (bc : BaseCounts)
    (h : lookupPos (run_analysis_state records).base_content_per_position p = some bc) :
    ((∃ ch ∈ observedBasesAt records p, isATGC ch = true) →
      percSum (contentPercent bc) = 100) ∧
    ((∀ ch ∈ observedBasesAt records p, isATGC ch = false) →
      percSum (contentPercent bc) = 0) ∧
    percSum (contentPercent bc) ≤ 100 := by
  rw [run_analysis_state, foldl_guiIngest_content] at h
  rw [show initGui.base_content_per_position = [] from rfl, contentFold_lookup] at h
  by_cases hreach : ∃ r ∈ records, p < r.sequence.length
  · rw [if_pos hreach, Option.some_inj] at h
    have hbc : totalCounts bc = (observedBasesAt records p).countP isATGC := by
      rw [← h]
      rw [show (lookupPos ([] : List (Nat × BaseCounts)) p).getD zeroCounts = zeroCounts
        from rfl]
      rw [totalCounts_addBases]
      simp [totalCounts, zeroCounts]
    refine ⟨?_, ?_, ?_⟩
    · rintro ⟨ch, hch, hA⟩
      have hpos : totalCounts bc ≠ 0 := by
        rw [hbc]
        have : 0 < (observedBasesAt records p).countP isATGC :=
          List.countP_pos_iff.mpr ⟨ch, hch, hA⟩
        omega
      rw [percSum_contentPercent, if_neg hpos]
    · intro hall
      have hzero : totalCounts bc = 0 := by
        rw [hbc]
        exact List.countP_eq_zero.mpr fun a ha => by simp [hall a ha]
      rw [percSum_contentPercent, if_pos hzero]
    · rw [percSum_contentPercent]
      split <;> norm_num
  · rw [if_neg hreach] at h
    simp [lookupPos] at h

/-- Witness for `composition_percentage_characterization` at the concrete
stream `[("A", [30]), ("N", [30])]`, position 0, whose entry is
`(1, 0, 0, 0)`. -/
theorem composition_percentage_characterization_witness :
    ((∃ ch ∈ observedBasesAt [⟨['A'], [30]⟩, ⟨['N'], [30]⟩] 0, isATGC ch = true) →
      percSum (contentPercent ⟨1, 0, 0, 0⟩) = 100) ∧
    ((∀ ch ∈ observedBasesAt [⟨['A'], [30]⟩, ⟨['N'], [30]⟩] 0, isATGC ch = false) →
      percSum (contentPercent ⟨1, 0, 0, 0⟩) = 0) ∧
    percSum (contentPercent ⟨1, 0, 0, 0⟩) ≤ 100 :=
  composition_percentage_characterization [⟨['A'], [30]⟩, ⟨['N'], [30]⟩] 0
    ⟨1, 0, 0, 0⟩ (by decide)

end Fastqc
